import Mathlib

/-!
# Verification of the Hardcoded-Protein folding engine

Shallow embedding of the HP lattice-folding engine
(`codefiles/classes/protein.py`, `codefiles/classes/aminoacid.py`,
`codefiles/algorithms/{random,hillclimber,annealing,bfs,bfs_random,mcts}.py`)
together with proofs about its scoring function, validity check, random
self-avoiding-walk generator, local-search metaheuristics and the
symmetry pruning of the branch-and-bound window search.
-/

namespace HardcodedProtein

/-- A lattice position.  The source stores positions as integer triples
`Tuple[int, int, int]` (one axis fixed at `0` in 2D). -/
structure Pos3 where
  x : Int
  y : Int
  z : Int
deriving DecidableEq, Repr

/-- Component-wise addition of a position and a direction vector,
mirroring `tuple(map(add, pos, direction))`. -/
def posAdd (p q : Pos3) : Pos3 := ⟨p.x + q.x, p.y + q.y, p.z + q.z⟩

/-- Component-wise subtraction, mirroring `tuple(map(sub, p, q))`. -/
def posSub (p q : Pos3) : Pos3 := ⟨p.x - q.x, p.y - q.y, p.z - q.z⟩

/-- The Manhattan distance used by `Protein.is_valid`:
`abs(dx) + abs(dy) + abs(dz)`. -/
def manhattan (p q : Pos3) : Nat :=
  (p.x - q.x).natAbs + (p.y - q.y).natAbs + (p.z - q.z).natAbs

/-- The six axis-unit offsets enumerated by `Protein.get_score`
(`adjacent_positions` in the source). -/
def adjacentOffsets : List Pos3 :=
  [⟨1,0,0⟩, ⟨-1,0,0⟩, ⟨0,1,0⟩, ⟨0,-1,0⟩, ⟨0,0,1⟩, ⟨0,0,-1⟩]

/-- Lattice adjacency: `q` is one of the six axis neighbours of `p`. -/
def isAdj (p q : Pos3) : Bool :=
  adjacentOffsets.any (fun d => posAdd p d = q)

/-- `Aminoacid.get_stability_score`: 0 if either acid is `'P'`,
else −1 if either is `'H'`, else −5 if the first is `'C'`, else 0. -/
def get_stability_score (self other : Char) : Int :=
  if self = 'P' ∨ other = 'P' then 0
  else if self = 'H' ∨ other = 'H' then -1
  else if self = 'C' then -5
  else 0

/-- A residue of the double-linked chain: its type character and its
current lattice position. -/
abbrev Residue := Char × Pos3

/-- The occupancy grid `Protein._grid`: a finite map from positions to
the type of the amino acid stored there (Python `dict`, so at most one
entry per position). -/
abbrev Grid := List (Pos3 × Char)

/-- Python `dict` lookup `self._grid[pos]` (as used by `get_score`),
returning the type of the acid found at `pos`, if any. -/
def gridLookup (g : Grid) (p : Pos3) : Option Char :=
  (g.find? (fun e => e.1 = p)).map (·.2)

/-- The `Protein` object state relevant to scoring and validity:
the backbone (in chain order, as built by `__create_double_linked_list`
from the sequence string) and the occupancy grid. -/
structure ProteinM where
  seq : List Residue
  grid : Grid

/-- Position of residue `i` of the chain (`aminoacid.position`). -/
def posOf (seq : List Residue) (i : Nat) : Pos3 :=
  (seq.getD i ('P', ⟨0,0,0⟩)).2

/-- Type character of residue `i` of the chain (`aminoacid.get_type()`). -/
def typeOf (seq : List Residue) (i : Nat) : Char :=
  (seq.getD i ('P', ⟨0,0,0⟩)).1

/-- The `connections` list computed for residue `i` by `get_score`:
positions of the chain predecessor and successor, when they exist. -/
def connections (seq : List Residue) (i : Nat) : List Pos3 :=
  (if i = 0 then [] else [posOf seq (i - 1)]) ++
    (if i + 1 < seq.length then [posOf seq (i + 1)] else [])

/-- The contribution of one residue in `Protein.get_score`'s while-loop:
for each of the six adjacent positions not occupied by a bonded
neighbour (`check_positions`), add the stability score with the acid the
grid holds there, if any. -/
def residueScore (g : Grid) (t : Char) (p : Pos3) (conns : List Pos3) : Int :=
  (adjacentOffsets.map (fun d =>
    if posAdd p d ∈ conns then 0
    else match gridLookup g (posAdd p d) with
      | some u => get_stability_score t u
      | none => 0)).sum

/-- `Protein.get_score`: the accumulated per-residue contributions,
floor-divided by 2 (`self._score // 2`). -/
def get_score (pr : ProteinM) : Int :=
  (∑ i ∈ Finset.range pr.seq.length,
    residueScore pr.grid (typeOf pr.seq i) (posOf pr.seq i)
      (connections pr.seq i)).fdiv 2

/-- The bond-walking loop of `Protein.is_valid`: `False` as soon as a
consecutive pair is not at Manhattan distance exactly 1. -/
def bondsOk : List Residue → Bool
  | a :: b :: rest => (manhattan a.2 b.2 == 1) && bondsOk (b :: rest)
  | _ => true

/-- `Protein.is_valid`: walk the chain checking each bonded pair, then
compare the grid size with the sequence length
(`len(self._grid) == len(self._sequence)`). -/
def is_valid (pr : ProteinM) : Bool :=
  bondsOk pr.seq && (pr.grid.length == pr.seq.length)

/-- The grid contents `Protein.get_score` sees when the grid holds
exactly the residues at their current positions: look the position up
in the chain itself. -/
def chainLookup (seq : List Residue) (p : Pos3) : Option Char :=
  (seq.find? (fun a => a.2 = p)).map (·.1)

/-- The specification-side pairwise score: the sum over unordered pairs
`i < j` of residues that are lattice-adjacent and not chain-bonded of
the pair contribution. -/
def pairScore (seq : List Residue) : Int :=
  ∑ i ∈ Finset.range seq.length, ∑ j ∈ Finset.range seq.length,
    if i < j ∧ j ≠ i + 1 ∧ isAdj (posOf seq i) (posOf seq j) = true then
      get_stability_score (typeOf seq i) (typeOf seq j)
    else 0

section ScoreLemmas

lemma pos3_eq_iff (p q : Pos3) : p = q ↔ p.x = q.x ∧ p.y = q.y ∧ p.z = q.z := by
  constructor
  · rintro rfl; exact ⟨rfl, rfl, rfl⟩
  · rintro ⟨h1, h2, h3⟩; cases p; cases q; simp_all

lemma isAdj_iff_manhattan (p q : Pos3) : isAdj p q = true ↔ manhattan p q = 1 := by
  constructor
  · intro h
    obtain ⟨d, hd, hpd⟩ : ∃ d ∈ adjacentOffsets, posAdd p d = q := by
      simpa only [isAdj, List.any_eq_true, decide_eq_true_eq] using h
    subst hpd
    simp only [adjacentOffsets, List.mem_cons, List.not_mem_nil, or_false] at hd
    rcases hd with rfl | rfl | rfl | rfl | rfl | rfl <;>
      simp only [manhattan, posAdd] <;> omega
  · intro h
    unfold manhattan at h
    have hgoal : ∃ d ∈ adjacentOffsets, posAdd p d = q := by
      by_cases hx : q.x = p.x
      · by_cases hy : q.y = p.y
        · rcases (by omega : q.z = p.z + 1 ∨ q.z = p.z - 1) with hz | hz
          · exact ⟨⟨0,0,1⟩, by decide, by simp [posAdd, pos3_eq_iff]; omega⟩
          · exact ⟨⟨0,0,-1⟩, by decide, by simp [posAdd, pos3_eq_iff]; omega⟩
        · rcases (by omega : (q.y = p.y + 1 ∨ q.y = p.y - 1) ∧ q.z = p.z) with ⟨hy1 | hy1, hz⟩
          · exact ⟨⟨0,1,0⟩, by decide, by simp [posAdd, pos3_eq_iff]; omega⟩
          · exact ⟨⟨0,-1,0⟩, by decide, by simp [posAdd, pos3_eq_iff]; omega⟩
      · rcases (by omega : (q.x = p.x + 1 ∨ q.x = p.x - 1) ∧ q.y = p.y ∧ q.z = p.z) with
          ⟨hx1 | hx1, hy, hz⟩
        · exact ⟨⟨1,0,0⟩, by decide, by simp [posAdd, pos3_eq_iff]; omega⟩
        · exact ⟨⟨-1,0,0⟩, by decide, by simp [posAdd, pos3_eq_iff]; omega⟩
    simpa only [isAdj, List.any_eq_true, decide_eq_true_eq] using hgoal

lemma manhattan_comm (p q : Pos3) : manhattan p q = manhattan q p := by
  unfold manhattan; omega

lemma isAdj_comm (p q : Pos3) : isAdj p q = isAdj q p := by
  by_cases h : manhattan p q = 1
  · rw [(isAdj_iff_manhattan p q).mpr h,
      (isAdj_iff_manhattan q p).mpr (by rw [manhattan_comm]; exact h)]
  · have h1 : isAdj p q = false := by
      rcases hb : isAdj p q with _ | _
      · rfl
      · exact absurd ((isAdj_iff_manhattan p q).mp hb) h
    have h2 : isAdj q p = false := by
      rcases hb : isAdj q p with _ | _
      · rfl
      · exact absurd (by rw [manhattan_comm]; exact (isAdj_iff_manhattan q p).mp hb) h
    rw [h1, h2]

lemma isAdj_self (p : Pos3) : isAdj p p = false := by
  rcases hb : isAdj p p with _ | _
  · rfl
  · have := (isAdj_iff_manhattan p p).mp hb
    unfold manhattan at this; omega

lemma get_stability_score_comm {a b : Char}
    (ha : a = 'H' ∨ a = 'P' ∨ a = 'C') (hb : b = 'H' ∨ b = 'P' ∨ b = 'C') :
    get_stability_score a b = get_stability_score b a := by
  rcases ha with rfl | rfl | rfl <;> rcases hb with rfl | rfl | rfl <;> decide

lemma posOf_eq_get (seq : List Residue) {i : Nat} (hi : i < seq.length) :
    posOf seq i = (seq.get ⟨i, hi⟩).2 := by
  unfold posOf; rw [List.getD_eq_get seq _ hi]

lemma typeOf_eq_get (seq : List Residue) {i : Nat} (hi : i < seq.length) :
    typeOf seq i = (seq.get ⟨i, hi⟩).1 := by
  unfold typeOf; rw [List.getD_eq_get seq _ hi]

lemma pos_inj (seq : List Residue) (hnd : (seq.map (·.2)).Nodup)
    {i j : Nat} (hi : i < seq.length) (hj : j < seq.length) :
    posOf seq i = posOf seq j ↔ i = j := by
  have hli : i < (seq.map (·.2)).length := by simpa using hi
  have hlj : j < (seq.map (·.2)).length := by simpa using hj
  have hgi : (seq.map (·.2)).get ⟨i, hli⟩ = posOf seq i := by
    rw [List.get_map, posOf_eq_get seq hi]
  have hgj : (seq.map (·.2)).get ⟨j, hlj⟩ = posOf seq j := by
    rw [List.get_map, posOf_eq_get seq hj]
  constructor
  · intro h
    have : (seq.map (·.2)).get ⟨i, hli⟩ = (seq.map (·.2)).get ⟨j, hlj⟩ := by
      rw [hgi, hgj, h]
    have := (List.Nodup.get_inj_iff hnd).mp this
    exact congrArg Fin.val this
  · rintro rfl; rfl

/-- With the grid holding exactly the residues at their positions, a grid
lookup at `q` contributes the summand of the unique chain index at `q`. -/
lemma lookup_as_sum (seq : List Residue) (hnd : (seq.map (·.2)).Nodup)
    (q : Pos3) (c : Char → Int) :
    (match chainLookup seq q with
      | some u => c u
      | none => 0) =
    ∑ j ∈ Finset.range seq.length,
      if posOf seq j = q then c (typeOf seq j) else 0 := by
  unfold chainLookup
  rcases hfind : seq.find? (fun a => a.2 = q) with _ | a
  · have hnone := List.find?_eq_none.mp hfind
    rw [hfind, Option.map_none']
    show (0 : Int) = _
    refine (Finset.sum_eq_zero ?_).symm
    intro j hj
    have hj' := Finset.mem_range.mp hj
    have hmem : seq.get ⟨j, hj'⟩ ∈ seq := seq.get_mem _ _
    have := hnone _ hmem
    rw [posOf_eq_get seq hj']
    simp only [decide_eq_true_eq] at this
    rw [if_neg this]
  · have hmem : a ∈ seq := List.mem_of_find?_eq_some hfind
    have hpa : a.2 = q := by
      have := List.find?_some hfind
      simpa using this
    obtain ⟨⟨j0, hj0⟩, hget⟩ := List.mem_iff_get.mp hmem
    rw [hfind, Option.map_some']
    show c a.1 = _
    refine ((Finset.sum_eq_single j0 ?_ ?_).trans ?_).symm
    · intro j hj hne
      have hj' := Finset.mem_range.mp hj
      rw [if_neg]
      intro hq
      have : posOf seq j = posOf seq j0 := by
        rw [hq, posOf_eq_get seq hj0, hget, hpa]
      exact hne ((pos_inj seq hnd hj' hj0).mp this)
    · intro h
      exact absurd (Finset.mem_range.mpr hj0) h
    · rw [if_pos, typeOf_eq_get seq hj0, hget]
      rw [posOf_eq_get seq hj0, hget, hpa]

lemma offsets_nodup : adjacentOffsets.Nodup := by decide

/-- Collapse the sum over the six offsets against a fixed target `q`:
at most one offset sends `p` to `q`. -/
lemma sum_offsets_eq (p q : Pos3) (c : Int) :
    (∑ d ∈ adjacentOffsets.toFinset, if posAdd p d = q then c else 0) =
      if isAdj p q = true then c else 0 := by
  by_cases h : isAdj p q = true
  · obtain ⟨d0, hd0, hpd0⟩ : ∃ d ∈ adjacentOffsets, posAdd p d = q := by
      simpa only [isAdj, List.any_eq_true, decide_eq_true_eq] using h
    rw [if_pos h]
    refine (Finset.sum_eq_single d0 ?_ ?_).trans ?_
    · intro d hd hne
      rw [if_neg]
      intro hpd
      apply hne
      have : posAdd p d = posAdd p d0 := by rw [hpd, hpd0]
      cases d; cases d0
      simp only [posAdd, Pos3.mk.injEq] at this
      simp only [Pos3.mk.injEq]
      omega
    · intro hd
      exact absurd (List.mem_toFinset.mpr hd0) hd
    · exact if_pos hpd0
  · rw [if_neg h]
    refine Finset.sum_eq_zero ?_
    intro d hd
    rw [if_neg]
    intro hpd
    exact h (by
      simp only [isAdj, List.any_eq_true, decide_eq_true_eq]
      exact ⟨d, List.mem_toFinset.mp hd, hpd⟩)

/-- The contribution of the ordered residue pair `(i, j)`: the stability
score when the two positions are lattice-adjacent and the pair is not
chain-bonded, 0 otherwise. -/
def contactTerm (seq : List Residue) (i j : Nat) : Int :=
  if isAdj (posOf seq i) (posOf seq j) = true ∧ ¬(j + 1 = i ∨ j = i + 1) then
    get_stability_score (typeOf seq i) (typeOf seq j)
  else 0

lemma connections_mem (seq : List Residue) (hnd : (seq.map (·.2)).Nodup)
    {i j : Nat} (hi : i < seq.length) (hj : j < seq.length) :
    posOf seq j ∈ connections seq i ↔ (j + 1 = i ∨ j = i + 1) := by
  unfold connections
  rw [List.mem_append]
  constructor
  · rintro (hm | hm)
    · left
      by_cases h0 : i = 0
      · rw [if_pos h0] at hm; simp at hm
      · rw [if_neg h0] at hm
        simp only [List.mem_singleton] at hm
        have hi1 : i - 1 < seq.length := by omega
        have := (pos_inj seq hnd hj hi1).mp hm
        omega
    · right
      by_cases h1 : i + 1 < seq.length
      · rw [if_pos h1] at hm
        simp only [List.mem_singleton] at hm
        exact (pos_inj seq hnd hj h1).mp hm
      · rw [if_neg h1] at hm; simp at hm
  · rintro (hji | hji)
    · left
      have h0 : ¬ i = 0 := by omega
      rw [if_neg h0]
      simp only [List.mem_singleton]
      exact (pos_inj seq hnd hj (by omega)).mpr (by omega)
    · right
      have h1 : i + 1 < seq.length := by omega
      rw [if_pos h1]
      simp only [List.mem_singleton]
      exact (pos_inj seq hnd hj h1).mpr hji

lemma typeOf_HPC (seq : List Residue)
    (htypes : ∀ r ∈ seq, r.1 = 'H' ∨ r.1 = 'P' ∨ r.1 = 'C')
    {i : Nat} (hi : i < seq.length) :
    typeOf seq i = 'H' ∨ typeOf seq i = 'P' ∨ typeOf seq i = 'C' := by
  rw [typeOf_eq_get seq hi]
  exact htypes _ (seq.get_mem _ _)

/-- The per-residue scan of `get_score` equals the sum over all other
residues of the contact-pair contribution. -/
lemma residueScore_eq_contacts (seq : List Residue) (g : Grid)
    (hnd : (seq.map (·.2)).Nodup)
    (hgrid : ∀ p, gridLookup g p = chainLookup seq p)
    {i : Nat} (hi : i < seq.length) :
    residueScore g (typeOf seq i) (posOf seq i) (connections seq i) =
      ∑ j ∈ Finset.range seq.length, contactTerm seq i j := by
  unfold residueScore
  rw [← List.sum_toFinset _ offsets_nodup]
  have hstep : ∀ d ∈ adjacentOffsets.toFinset,
      (if posAdd (posOf seq i) d ∈ connections seq i then 0
       else match gridLookup g (posAdd (posOf seq i) d) with
         | some u => get_stability_score (typeOf seq i) u
         | none => 0) =
      ∑ j ∈ Finset.range seq.length,
        if posAdd (posOf seq i) d = posOf seq j then
          (if posOf seq j ∈ connections seq i then 0
           else get_stability_score (typeOf seq i) (typeOf seq j))
        else 0 := by
    intro d _
    by_cases hc : posAdd (posOf seq i) d ∈ connections seq i
    · rw [if_pos hc]
      symm
      refine Finset.sum_eq_zero ?_
      intro j hj
      by_cases hpj : posAdd (posOf seq i) d = posOf seq j
      · rw [if_pos hpj, if_pos (hpj ▸ hc)]
      · rw [if_neg hpj]
    · rw [if_neg hc, hgrid,
        lookup_as_sum seq hnd (posAdd (posOf seq i) d)
          (fun u => get_stability_score (typeOf seq i) u)]
      refine Finset.sum_congr rfl ?_
      intro j hj
      by_cases hpj : posOf seq j = posAdd (posOf seq i) d
      · rw [if_pos hpj, if_pos hpj.symm, if_neg (hpj ▸ hc)]
      · rw [if_neg hpj, if_neg (fun h => hpj h.symm)]
  rw [Finset.sum_congr rfl hstep, Finset.sum_comm]
  refine Finset.sum_congr rfl ?_
  intro j hj
  rw [sum_offsets_eq]
  unfold contactTerm
  by_cases ha : isAdj (posOf seq i) (posOf seq j) = true
  · rw [if_pos ha]
    by_cases hcn : posOf seq j ∈ connections seq i
    · rw [if_pos hcn, if_neg]
      rintro ⟨_, hb⟩
      exact hb ((connections_mem seq hnd hi (Finset.mem_range.mp hj)).mp hcn)
    · rw [if_neg hcn,
        if_pos ⟨ha, fun hb =>
          hcn ((connections_mem seq hnd hi (Finset.mem_range.mp hj)).mpr hb)⟩]
  · rw [if_neg ha, if_neg (fun hh => ha hh.1)]

/-- Summing a symmetric, diagonally-vanishing family over all ordered
index pairs double-counts the strictly-upper-triangular sum. -/
lemma double_count (n : Nat) (G : Nat → Nat → Int)
    (hsym : ∀ i, i < n → ∀ j, j < n → G i j = G j i)
    (hdiag : ∀ i, i < n → G i i = 0) :
    (∑ i ∈ Finset.range n, ∑ j ∈ Finset.range n, G i j) =
      2 * ∑ i ∈ Finset.range n, ∑ j ∈ Finset.range n,
        (if i < j then G i j else 0) := by
  have h1 : (∑ i ∈ Finset.range n, ∑ j ∈ Finset.range n, G i j) =
      ∑ i ∈ Finset.range n, ∑ j ∈ Finset.range n,
        ((if i < j then G i j else 0) + (if j < i then G i j else 0)) := by
    refine Finset.sum_congr rfl fun i hi => Finset.sum_congr rfl fun j hj => ?_
    rcases lt_trichotomy i j with h | h | h
    · rw [if_pos h, if_neg (by omega : ¬ j < i)]; ring
    · subst h
      simp only [lt_irrefl, if_false]
      rw [hdiag i (Finset.mem_range.mp hi)]
      ring
    · rw [if_neg (by omega : ¬ i < j), if_pos h]; ring
  have h2 : (∑ i ∈ Finset.range n, ∑ j ∈ Finset.range n,
        (if j < i then G i j else 0)) =
      ∑ i ∈ Finset.range n, ∑ j ∈ Finset.range n,
        (if i < j then G i j else 0) := by
    rw [Finset.sum_comm]
    refine Finset.sum_congr rfl fun i hi => Finset.sum_congr rfl fun j hj => ?_
    by_cases h : i < j
    · rw [if_pos h, if_pos h,
        hsym j (Finset.mem_range.mp hj) i (Finset.mem_range.mp hi)]
    · rw [if_neg h, if_neg h]
  rw [h1]
  simp only [Finset.sum_add_distrib]
  rw [h2]
  ring

lemma upper_eq_pairScore (seq : List Residue) :
    (∑ i ∈ Finset.range seq.length, ∑ j ∈ Finset.range seq.length,
      (if i < j then contactTerm seq i j else 0)) = pairScore seq := by
  unfold pairScore contactTerm
  refine Finset.sum_congr rfl fun i hi => Finset.sum_congr rfl fun j hj => ?_
  by_cases hij : i < j
  · rw [if_pos hij]
    by_cases hb : j = i + 1
    · rw [if_neg (fun h => h.2 (Or.inr hb)), if_neg (fun h => h.2.1 hb)]
    · by_cases ha : isAdj (posOf seq i) (posOf seq j) = true
      · rw [if_pos ⟨ha, fun h => by rcases h with h | h; omega; exact hb h⟩,
          if_pos ⟨hij, hb, ha⟩]
      · rw [if_neg (fun h => ha h.1), if_neg (fun h => ha h.2.2)]
  · rw [if_neg hij, if_neg (fun h => hij h.1)]

end ScoreLemmas

/-- C1: for every chain whose occupancy grid contains exactly the residues
at their current positions (and whose residues are typed H, P or C),
`Protein.get_score` returns the sum over unordered non-bonded
lattice-adjacent residue pairs of the precedence contribution
(0 if either is P, else −1 if either is H, else −5), each pair being
discovered from both sides and the accumulated total divided by 2. -/
theorem C1_get_score_pairwise (seq : List Residue) (g : Grid)
    (hnd : (seq.map (·.2)).Nodup)
    (htypes : ∀ r ∈ seq, r.1 = 'H' ∨ r.1 = 'P' ∨ r.1 = 'C')
    (hgrid : ∀ p, gridLookup g p = chainLookup seq p) :
    get_score ⟨seq, g⟩ = pairScore seq := by
  unfold get_score
  show (∑ i ∈ Finset.range seq.length,
    residueScore g (typeOf seq i) (posOf seq i) (connections seq i)).fdiv 2 =
    pairScore seq
  have hsym : ∀ i, i < seq.length → ∀ j, j < seq.length →
      contactTerm seq i j = contactTerm seq j i := by
    intro i hi j hj
    unfold contactTerm
    have hadj := isAdj_comm (posOf seq i) (posOf seq j)
    by_cases ha : isAdj (posOf seq i) (posOf seq j) = true
    · have ha2 : isAdj (posOf seq j) (posOf seq i) = true := by
        rw [← hadj]; exact ha
      by_cases hb : j + 1 = i ∨ j = i + 1
      · rw [if_neg (fun h => h.2 hb), if_neg (fun h => h.2 (by omega))]
      · rw [if_pos ⟨ha, hb⟩, if_pos ⟨ha2, fun h => hb (by omega)⟩]
        exact get_stability_score_comm (typeOf_HPC seq htypes hi)
          (typeOf_HPC seq htypes hj)
    · have ha2 : ¬ isAdj (posOf seq j) (posOf seq i) = true := by
        rw [← hadj]; exact ha
      rw [if_neg (fun h => ha h.1), if_neg (fun h => ha2 h.1)]
  have hdiag : ∀ i, i < seq.length → contactTerm seq i i = 0 := by
    intro i hi
    unfold contactTerm
    rw [if_neg]
    rintro ⟨hadj, _⟩
    rw [isAdj_self] at hadj
    exact Bool.false_ne_true hadj
  have h1 : ∀ i ∈ Finset.range seq.length,
      residueScore g (typeOf seq i) (posOf seq i) (connections seq i) =
        ∑ j ∈ Finset.range seq.length, contactTerm seq i j := fun i hi =>
    residueScore_eq_contacts seq g hnd hgrid (Finset.mem_range.mp hi)
  rw [Finset.sum_congr rfl h1,
    double_count seq.length (contactTerm seq) hsym hdiag,
    upper_eq_pairScore seq]
  exact Int.mul_fdiv_cancel_left _ (by norm_num)

/-- Mirroring the chain into the grid (one entry per residue, keyed by
position) makes grid lookups agree with lookups along the chain. -/
lemma gridOfChain_lookup (seq : List Residue) (p : Pos3) :
    gridLookup (seq.map (fun r => (r.2, r.1))) p = chainLookup seq p := by
  induction seq with
  | nil => rfl
  | cons a rest ih =>
    unfold gridLookup chainLookup
    simp only [List.map_cons]
    by_cases h : a.2 = p
    · rw [List.find?_cons_of_pos _ (by simpa using h),
        List.find?_cons_of_pos _ (by simpa using h)]
      rfl
    · rw [List.find?_cons_of_neg _ (by simpa using h),
        List.find?_cons_of_neg _ (by simpa using h)]
      exact ih

/-- The 2D unit-square fold of the sequence HHHH. -/
def squareHHHH : List Residue :=
  [('H', ⟨0,0,0⟩), ('H', ⟨1,0,0⟩), ('H', ⟨1,1,0⟩), ('H', ⟨0,1,0⟩)]

/-- The occupancy grid matching `squareHHHH`. -/
def squareGrid : Grid :=
  [(⟨0,0,0⟩, 'H'), (⟨1,0,0⟩, 'H'), (⟨1,1,0⟩, 'H'), (⟨0,1,0⟩, 'H')]

/-- C1 witness: on the unit-square HHHH fold the scoring loop returns
the pairwise sum, which is −1 (one non-bonded H-H contact). -/
theorem C1_witness :
    get_score ⟨squareHHHH, squareGrid⟩ = pairScore squareHHHH ∧
      pairScore squareHHHH = -1 := by
  constructor
  · exact C1_get_score_pairwise squareHHHH squareGrid (by decide) (by decide)
      (fun p => gridOfChain_lookup squareHHHH p)
  · decide

section ValidityLemmas

lemma bondsOk_iff_chain (seq : List Residue) :
    bondsOk seq = true ↔ List.Chain' (fun a b => manhattan a.2 b.2 = 1) seq := by
  induction seq with
  | nil => simp [bondsOk]
  | cons a rest ih =>
    cases rest with
    | nil => simp [bondsOk]
    | cons b rest2 =>
      rw [show bondsOk (a :: b :: rest2) =
          ((manhattan a.2 b.2 == 1) && bondsOk (b :: rest2)) from rfl,
        List.chain'_cons, Bool.and_eq_true, beq_iff_eq, ih]

lemma grid_length_iff (grid : Grid) (seq : List Residue)
    (hkeys : (grid.map (·.1)).Nodup)
    (hmem : ∀ p : Pos3, p ∈ grid.map (·.1) ↔ p ∈ seq.map (·.2)) :
    grid.length = seq.length ↔ (seq.map (·.2)).Nodup := by
  have hlen1 : grid.length = (grid.map (·.1)).length := (List.length_map _ _).symm
  have hcard : (grid.map (·.1)).toFinset.card = (grid.map (·.1)).length :=
    List.toFinset_card_of_nodup hkeys
  have hsetEq : (grid.map (·.1)).toFinset = (seq.map (·.2)).toFinset := by
    ext p
    simp only [List.mem_toFinset]
    exact hmem p
  have hdedup : (seq.map (·.2)).toFinset.card = (seq.map (·.2)).dedup.length :=
    List.card_toFinset _
  have hlen : grid.length = (seq.map (·.2)).dedup.length := by
    rw [hlen1, ← hcard, hsetEq, hdedup]
  have hplen : (seq.map (·.2)).length = seq.length := List.length_map _ _
  constructor
  · intro h
    have hdl : (seq.map (·.2)).dedup.length = (seq.map (·.2)).length := by omega
    have hsub : (seq.map (·.2)).dedup.Sublist (seq.map (·.2)) :=
      List.dedup_sublist _
    have heq : (seq.map (·.2)).dedup = seq.map (·.2) := hsub.eq_of_length hdl
    rw [← heq]
    exact List.nodup_dedup _
  · intro h
    rw [hlen, List.dedup_eq_self.mpr h, hplen]

end ValidityLemmas

/-- C2: with the occupancy grid keyed exactly by the residues' distinct
occupied positions, `Protein.is_valid` returns true iff all residues
occupy distinct positions and every bonded pair is at Manhattan distance
exactly 1; and whatever the grid holds, a chain with a bond violation
is reported invalid by the eager walk. -/
theorem C2_is_valid_iff (seq : List Residue) (grid : Grid)
    (hkeys : (grid.map (·.1)).Nodup)
    (hmem : ∀ p : Pos3, p ∈ grid.map (·.1) ↔ p ∈ seq.map (·.2)) :
    (is_valid ⟨seq, grid⟩ = true ↔
      ((seq.map (·.2)).Nodup ∧
        List.Chain' (fun a b => manhattan a.2 b.2 = 1) seq)) ∧
    ∀ g2 : Grid, ¬ List.Chain' (fun a b => manhattan a.2 b.2 = 1) seq →
      is_valid ⟨seq, g2⟩ = false := by
  constructor
  · show (bondsOk seq && (grid.length == seq.length)) = true ↔ _
    rw [Bool.and_eq_true, beq_iff_eq, bondsOk_iff_chain,
      grid_length_iff grid seq hkeys hmem]
    exact and_comm
  · intro g2 hviol
    show (bondsOk seq && (g2.length == seq.length)) = false
    have hb : bondsOk seq = false := by
      rcases hb : bondsOk seq with _ | _
      · rfl
      · exact absurd ((bondsOk_iff_chain seq).mp hb) hviol
    rw [hb, Bool.false_and]

/-- C2 witness: the unit-square HHHH fold with its synchronized grid is
reported valid, and with a broken bond it is reported invalid. -/
theorem C2_witness :
    is_valid ⟨squareHHHH, squareGrid⟩ = true ∧
      is_valid ⟨[('H', ⟨0,0,0⟩), ('H', ⟨2,0,0⟩)], squareGrid⟩ = false := by
  constructor
  · exact (C2_is_valid_iff squareHHHH squareGrid (by decide)
      (by intro p; simp [squareGrid, squareHHHH])).1.mpr
      ⟨by decide, by simp [squareHHHH, List.chain'_cons, manhattan]⟩
  · exact (C2_is_valid_iff [('H', ⟨0,0,0⟩), ('H', ⟨2,0,0⟩)]
      [(⟨0,0,0⟩, 'H'), (⟨2,0,0⟩, 'H')]
      (by decide) (by intro p; simp)).2 squareGrid
      (by simp [List.chain'_cons, manhattan])

section LengthThree

lemma chainLookup_eq_none (seq : List Residue) (q : Pos3)
    (h : ∀ r ∈ seq, r.2 ≠ q) : chainLookup seq q = none := by
  unfold chainLookup
  have hf : seq.find? (fun a => a.2 = q) = none :=
    List.find?_eq_none.mpr (by intro a ha; simpa using h a ha)
  rw [hf]
  rfl

lemma residueScore_eq_zero (g : Grid) (t : Char) (p : Pos3) (conns : List Pos3)
    (h : ∀ d ∈ adjacentOffsets, posAdd p d ∉ conns →
      gridLookup g (posAdd p d) = none) :
    residueScore g t p conns = 0 := by
  unfold residueScore
  apply List.sum_eq_zero
  intro x hx
  obtain ⟨d, hd, rfl⟩ := List.mem_map.mp hx
  by_cases hc : posAdd p d ∈ conns
  · rw [if_pos hc]
  · rw [if_neg hc, h d hd hc]

lemma posAdd_manhattan (p : Pos3) (d : Pos3) (hd : d ∈ adjacentOffsets) :
    manhattan p (posAdd p d) = 1 := by
  apply (isAdj_iff_manhattan p (posAdd p d)).mp
  simp only [isAdj, List.any_eq_true, decide_eq_true_eq]
  exact ⟨d, hd, rfl⟩

lemma posAdd_ne_self (p : Pos3) (d : Pos3) (hd : d ∈ adjacentOffsets) :
    posAdd p d ≠ p := by
  intro h
  have := posAdd_manhattan p d hd
  rw [h] at this
  unfold manhattan at this
  omega

end LengthThree

/-- C9: a length-3 chain that is valid (distinct positions, bonded pairs
at Manhattan distance 1) with a synchronized grid never has residues 0
and 2 lattice-adjacent, and `Protein.get_score` returns 0 regardless of
the three residue types. -/
theorem C9_length3_score_zero (t0 t1 t2 : Char) (p0 p1 p2 : Pos3) (g : Grid)
    (hnd : ([(t0, p0), (t1, p1), (t2, p2)].map (·.2)).Nodup)
    (hb01 : manhattan p0 p1 = 1) (hb12 : manhattan p1 p2 = 1)
    (hgrid : ∀ p, gridLookup g p = chainLookup [(t0, p0), (t1, p1), (t2, p2)] p) :
    isAdj p0 p2 = false ∧
      get_score ⟨[(t0, p0), (t1, p1), (t2, p2)], g⟩ = 0 := by
  have hpar : manhattan p0 p2 ≠ 1 := by
    intro hcon
    unfold manhattan at hb01 hb12 hcon
    omega
  have hadj : isAdj p0 p2 = false := by
    rcases hb : isAdj p0 p2 with _ | _
    · rfl
    · exact absurd ((isAdj_iff_manhattan p0 p2).mp hb) hpar
  refine ⟨hadj, ?_⟩
  unfold get_score
  have hsum : (∑ i ∈ Finset.range 3,
      residueScore g (typeOf [(t0, p0), (t1, p1), (t2, p2)] i)
        (posOf [(t0, p0), (t1, p1), (t2, p2)] i)
        (connections [(t0, p0), (t1, p1), (t2, p2)] i)) = 0 := by
    refine Finset.sum_eq_zero ?_
    intro i hi
    have hi3 := Finset.mem_range.mp hi
    interval_cases i
    · apply residueScore_eq_zero
      intro d hd hq
      have hq1 : posAdd p0 d ≠ p1 := fun h =>
        hq (by show posAdd p0 d ∈ ([] ++ [p1] : List Pos3); simp [h])
      rw [hgrid]
      apply chainLookup_eq_none
      intro r hr
      simp only [List.mem_cons, List.not_mem_nil, or_false] at hr
      show r.2 ≠ posAdd p0 d
      rcases hr with rfl | rfl | rfl
      · exact fun h => posAdd_ne_self p0 d hd h.symm
      · exact fun h => hq1 h.symm
      · exact fun h => hpar (by
          rw [show p2 = posAdd p0 d from h]
          exact posAdd_manhattan p0 d hd)
    · apply residueScore_eq_zero
      intro d hd hq
      have hq0 : posAdd p1 d ≠ p0 := fun h =>
        hq (by show posAdd p1 d ∈ ([p0] ++ [p2] : List Pos3); simp [h])
      have hq2 : posAdd p1 d ≠ p2 := fun h =>
        hq (by show posAdd p1 d ∈ ([p0] ++ [p2] : List Pos3); simp [h])
      rw [hgrid]
      apply chainLookup_eq_none
      intro r hr
      simp only [List.mem_cons, List.not_mem_nil, or_false] at hr
      show r.2 ≠ posAdd p1 d
      rcases hr with rfl | rfl | rfl
      · exact fun h => hq0 h.symm
      · exact fun h => posAdd_ne_self p1 d hd h.symm
      · exact fun h => hq2 h.symm
    · apply residueScore_eq_zero
      intro d hd hq
      have hq1 : posAdd p2 d ≠ p1 := fun h =>
        hq (by show posAdd p2 d ∈ ([p1] ++ [] : List Pos3); simp [h])
      rw [hgrid]
      apply chainLookup_eq_none
      intro r hr
      simp only [List.mem_cons, List.not_mem_nil, or_false] at hr
      show r.2 ≠ posAdd p2 d
      rcases hr with rfl | rfl | rfl
      · exact fun h => hpar (by
          rw [manhattan_comm, show p0 = posAdd p2 d from h]
          exact posAdd_manhattan p2 d hd)
      · exact fun h => hq1 h.symm
      · exact fun h => posAdd_ne_self p2 d hd h.symm
  rw [show (⟨[(t0, p0), (t1, p1), (t2, p2)], g⟩ : ProteinM).seq.length = 3 from rfl]
  rw [hsum]
  rfl

/-- C9 witness: the concrete L-shaped HPC chain at the origin scores 0
and its endpoints are not adjacent. -/
theorem C9_witness :
    isAdj ⟨0,0,0⟩ ⟨1,1,0⟩ = false ∧
      get_score ⟨[('H', ⟨0,0,0⟩), ('P', ⟨1,0,0⟩), ('C', ⟨1,1,0⟩)],
        [(⟨0,0,0⟩, 'H'), (⟨1,0,0⟩, 'P'), (⟨1,1,0⟩, 'C')]⟩ = 0 :=
  C9_length3_score_zero 'H' 'P' 'C' ⟨0,0,0⟩ ⟨1,0,0⟩ ⟨1,1,0⟩
    [(⟨0,0,0⟩, 'H'), (⟨1,0,0⟩, 'P'), (⟨1,1,0⟩, 'C')]
    (by decide) (by decide) (by decide)
    (fun p => gridOfChain_lookup [('H', ⟨0,0,0⟩), ('P', ⟨1,0,0⟩), ('C', ⟨1,1,0⟩)] p)

/-! ## HillclimberFold (`codefiles/algorithms/hillclimber.py`)

Each iteration of `HillclimberFold.run` calls `_run_experiment`, which
either produces a valid candidate chain and submits it to
`_check_highscore`, or leaves the current state untouched.  We model an
iteration by the score of the submitted valid candidate (`some c`) or
`none` when no valid refold was found, and track the recorded best
score `self._highscore[1]`. -/

/-- `HillclimberFold._check_highscore`'s acceptance test:
`protein.get_score() < self._highscore[1]`. -/
def hillclimberAccepts (best cand : Int) : Bool := cand < best

/-- One iteration of the hillclimbing loop: a valid candidate replaces
the highscore only when `_check_highscore` accepts it. -/
def hillclimberStep (best : Int) : Option Int → Int
  | none => best
  | some c => if hillclimberAccepts best c then c else best

/-- The whole `for _ in range(self._iterations)` loop of
`HillclimberFold.run`, starting from the initial fold's score. -/
def hillclimberRun (s0 : Int) (cands : List (Option Int)) : Int :=
  cands.foldl hillclimberStep s0

/-- The recorded best score after each iteration of the loop. -/
def hillclimberTrace (s0 : Int) : List (Option Int) → List Int
  | [] => []
  | c :: cs => hillclimberStep s0 c :: hillclimberTrace (hillclimberStep s0 c) cs

lemma hillclimberStep_le (best : Int) (c : Option Int) :
    hillclimberStep best c ≤ best := by
  rcases c with _ | c
  · exact le_refl best
  · show (if hillclimberAccepts best c = true then c else best) ≤ best
    by_cases h : hillclimberAccepts best c = true
    · rw [if_pos h]
      exact le_of_lt (of_decide_eq_true h)
    · rw [if_neg h]

lemma hillclimberStep_some_le (best c : Int) :
    hillclimberStep best (some c) ≤ c := by
  show (if hillclimberAccepts best c = true then c else best) ≤ c
  by_cases hacc : hillclimberAccepts best c = true
  · rw [if_pos hacc]
  · rw [if_neg hacc]
    refine le_of_not_lt ?_
    intro hc
    exact hacc (decide_eq_true hc)

lemma hillclimberRun_cons (s0 : Int) (c : Option Int) (cs : List (Option Int)) :
    hillclimberRun s0 (c :: cs) = hillclimberRun (hillclimberStep s0 c) cs := rfl

lemma hillclimberRun_mem (s0 : Int) (cands : List (Option Int)) :
    hillclimberRun s0 cands ∈ s0 :: cands.filterMap id := by
  induction cands generalizing s0 with
  | nil => simp [hillclimberRun]
  | cons c cs ih =>
    rw [hillclimberRun_cons]
    rcases c with _ | c
    · simpa [List.filterMap_cons] using ih s0
    · have hmem := ih (hillclimberStep s0 (some c))
      simp only [List.filterMap_cons, id, List.mem_cons] at *
      rcases hmem with h | h
      · by_cases hacc : hillclimberAccepts s0 c = true
        · right; left
          rw [h]
          show (if hillclimberAccepts s0 c = true then c else s0) = c
          rw [if_pos hacc]
        · left
          rw [h]
          show (if hillclimberAccepts s0 c = true then c else s0) = s0
          rw [if_neg hacc]
      · right; right; exact h

lemma hillclimberRun_le (s0 : Int) (cands : List (Option Int)) :
    ∀ x ∈ s0 :: cands.filterMap id, hillclimberRun s0 cands ≤ x := by
  induction cands generalizing s0 with
  | nil => simp [hillclimberRun]
  | cons c cs ih =>
    intro x hx
    rw [hillclimberRun_cons]
    rcases c with _ | c
    · simp only [List.filterMap_cons, id] at hx
      exact ih s0 x hx
    · simp only [List.filterMap_cons, id, List.mem_cons] at hx
      rcases hx with rfl | rfl | hx
      · exact le_trans (ih _ _ (List.mem_cons_self _ _))
          (hillclimberStep_le _ _)
      · exact le_trans (ih _ _ (List.mem_cons_self _ _))
          (hillclimberStep_some_le _ _)
      · exact ih (hillclimberStep s0 (some c)) x (List.mem_cons_of_mem _ hx)

lemma hillclimberTrace_length (s0 : Int) (cands : List (Option Int)) :
    (hillclimberTrace s0 cands).length = cands.length := by
  induction cands generalizing s0 with
  | nil => rfl
  | cons c cs ih => simp [hillclimberTrace, ih]

lemma hillclimberTrace_chain (s0 : Int) (cands : List (Option Int)) :
    List.Chain' (fun a b => b ≤ a) (s0 :: hillclimberTrace s0 cands) := by
  induction cands generalizing s0 with
  | nil => simp [hillclimberTrace]
  | cons c cs ih =>
    rw [show hillclimberTrace s0 (c :: cs) =
        hillclimberStep s0 c :: hillclimberTrace (hillclimberStep s0 c) cs from rfl]
    rw [List.chain'_cons]
    exact ⟨hillclimberStep_le s0 c, ih (hillclimberStep s0 c)⟩

lemma hillclimberRun_last (s0 : Int) (cands : List (Option Int)) :
    hillclimberRun s0 cands = (hillclimberTrace s0 cands).getLastD s0 := by
  induction cands generalizing s0 with
  | nil => rfl
  | cons c cs ih =>
    rw [hillclimberRun_cons, ih]
    show (hillclimberTrace (hillclimberStep s0 c) cs).getLastD (hillclimberStep s0 c) =
      (hillclimberStep s0 c ::
        hillclimberTrace (hillclimberStep s0 c) cs).getLastD s0
    rw [List.getLastD_cons]

/-- C7: the hillclimbing loop accepts only strictly-lower scores, so the
recorded best score never increases across iterations; the loop performs
exactly one experiment per configured iteration; and the returned
highscore is the minimum of all scores observed during the run. -/
theorem C7_hillclimber_descent (s0 : Int) (cands : List (Option Int)) :
    (hillclimberTrace s0 cands).length = cands.length ∧
    List.Chain' (fun a b => b ≤ a) (s0 :: hillclimberTrace s0 cands) ∧
    hillclimberRun s0 cands = (hillclimberTrace s0 cands).getLastD s0 ∧
    hillclimberRun s0 cands ∈ s0 :: cands.filterMap id ∧
    (∀ x ∈ s0 :: cands.filterMap id, hillclimberRun s0 cands ≤ x) :=
  ⟨hillclimberTrace_length s0 cands, hillclimberTrace_chain s0 cands,
    hillclimberRun_last s0 cands, hillclimberRun_mem s0 cands,
    hillclimberRun_le s0 cands⟩

/-- C7 witness: a concrete four-iteration run, for which the recorded
best never rises and the result is the lowest observed score. -/
theorem C7_witness :
    hillclimberRun 0 [some 2, some (-1), none, some (-3)] = -3 ∧
      (hillclimberTrace 0 [some 2, some (-1), none, some (-3)]).length = 4 ∧
      (∀ x ∈ (0 : Int) :: [some 2, some (-1), none,
          some (-3)].filterMap id,
        hillclimberRun 0 [some 2, some (-1), none, some (-3)] ≤ x) := by
  refine ⟨by decide, (C7_hillclimber_descent 0 _).1, ?_⟩
  exact (C7_hillclimber_descent 0 [some 2, some (-1), none, some (-3)]).2.2.2.2

/-! ## AnnealingFold (`codefiles/algorithms/annealing.py`)

`AnnealingFold._check_highscore` resets the grid, rejects invalid
candidates, computes `chance = min(2, 2 ** ((old_score - new_score) /
temperature))` and accepts the candidate only when
`new_score < self._highscore[1]` AND `chance > random.random()`.
`AnnealingFold.run` updates the temperature each iteration by
`self._temperature *= 1 - self._cooling_rate` followed by
`self._temperature = max(1, self._temperature)` with cooling rate
0.0025.  Scores are integers; the float temperature, chance and random
draw are modelled as reals. -/

/-- `AnnealingFold._cooling_rate`. -/
def annealingCoolingRate : ℝ := 0.0025

/-- The per-iteration temperature update of `AnnealingFold.run`. -/
noncomputable def annealingTempUpdate (t : ℝ) : ℝ :=
  max 1 ((1 - annealingCoolingRate) * t)

/-- The capped acceptance chance computed by
`AnnealingFold._check_highscore`. -/
noncomputable def annealingChance (old new : Int) (temp : ℝ) : ℝ :=
  min 2 ((2 : ℝ) ^ (((old : ℝ) - (new : ℝ)) / temp))

/-- The acceptance decision of `AnnealingFold._check_highscore`:
the candidate must be valid, strictly improve the recorded best score,
and beat the fresh uniform draw. -/
def annealingAccepts (valid : Bool) (old new : Int) (temp draw : ℝ) : Prop :=
  valid = true ∧ new < old ∧ annealingChance old new temp > draw

/-- C3 counterexample: a valid non-improving candidate (equal scores) at
temperature 10 with draw 1/2 is predicted accepted by the claim
(the draw is below the chance `2^0 = 1`), but the code rejects it:
acceptance requires `new_score < old_score`. -/
theorem C3_counterexample :
    ¬ annealingAccepts true 0 0 10 (1/2) ∧
      (1/2 : ℝ) < annealingChance 0 0 10 := by
  constructor
  · rintro ⟨_, h, _⟩
    exact lt_irrefl 0 h
  · have h0 : (((0 : Int) : ℝ) - ((0 : Int) : ℝ)) / 10 = 0 := by norm_num
    unfold annealingChance
    rw [h0, Real.rpow_zero, min_eq_right (by norm_num : (1:ℝ) ≤ 2)]
    norm_num

/-- C3 amended: a valid candidate is accepted iff its score strictly
improves the recorded best (the capped chance then exceeds 1, so it
always beats the uniform draw, and non-improving candidates always fail
the strict-improvement conjunct); the temperature is multiplied by
`1 - 0.0025` each iteration and floored at 1. -/
theorem C3_annealing_acceptance (old new : Int) (temp draw : ℝ)
    (htemp : 1 ≤ temp) (hdraw0 : 0 ≤ draw) (hdraw1 : draw < 1) :
    (annealingAccepts true old new temp draw ↔ new < old) ∧
      (∀ t : ℝ, 1 ≤ annealingTempUpdate t) := by
  constructor
  · constructor
    · rintro ⟨_, h, _⟩
      exact h
    · intro h
      refine ⟨rfl, h, ?_⟩
      have htemp0 : (0 : ℝ) < temp := lt_of_lt_of_le one_pos htemp
      have hsub : (0 : ℝ) < (old : ℝ) - (new : ℝ) := by
        have : (new : ℝ) < (old : ℝ) := by exact_mod_cast h
        linarith
      have hexp : (0 : ℝ) < ((old : ℝ) - (new : ℝ)) / temp :=
        div_pos hsub htemp0
      have hpow : (1 : ℝ) < (2 : ℝ) ^ (((old : ℝ) - (new : ℝ)) / temp) :=
        (Real.one_lt_rpow_iff_of_pos (by norm_num)).mpr
          (Or.inl ⟨by norm_num, hexp⟩)
      have hchance : (1 : ℝ) < annealingChance old new temp :=
        lt_min (by norm_num) hpow
      exact lt_trans hdraw1 hchance
  · intro t
    exact le_max_left 1 _

/-- C3 witness: an improving candidate (score −1 against best 0) is
accepted at temperature 10 with draw 1/2, and the cooled temperature
never falls below the floor 1. -/
theorem C3_witness :
    annealingAccepts true 0 (-1) 10 (1/2) ∧
      1 ≤ annealingTempUpdate 5 :=
  ⟨((C3_annealing_acceptance 0 (-1) 10 (1/2) (by norm_num) (by norm_num)
      (by norm_num)).1).mpr (by norm_num),
    (C3_annealing_acceptance 0 (-1) 10 (1/2) (by norm_num) (by norm_num)
      (by norm_num)).2 5⟩

/-! ## Constructor validation (C8) -/

/-- `RandomFold.__init__`: `if dimensions not in (2, 3): raise
ValueError("Dimensions must be 2 or 3.")`. -/
def randomFoldInit (dimensions : Int) : Except String Unit :=
  if dimensions = 2 ∨ dimensions = 3 then Except.ok ()
  else Except.error "Dimensions must be 2 or 3."

/-- `HillclimberFold.__init__`: same membership test with its own
message. -/
def hillclimberFoldInit (dimensions : Int) : Except String Unit :=
  if dimensions = 2 ∨ dimensions = 3 then Except.ok ()
  else Except.error "Please enter dimensions as 2 or 3 for 2D or 3D folding."

/-- `BfsFold.__init__` only stores its arguments; it performs no
dimensionality validation. -/
def bfsFoldInit (dimensions : Int) : Except String Unit :=
  Except.ok ()

/-- Whether a constructor run raised. -/
def raisesError : Except String Unit → Bool
  | Except.error _ => true
  | Except.ok _ => false

/-- C8 counterexample: at dimensionality 4 the claim predicts all three
constructors raise, but `BfsFold.__init__` succeeds. -/
theorem C8_counterexample :
    ¬ ((4 : Int) ≠ 2 → (4 : Int) ≠ 3 →
      (raisesError (randomFoldInit 4) = true ∧
        raisesError (hillclimberFoldInit 4) = true ∧
        raisesError (bfsFoldInit 4) = true)) := by
  decide

/-- C8 amended: `RandomFold` and `HillclimberFold` reject any
dimensionality other than 2 or 3 at construction, but `BfsFold` accepts
every dimensionality without validation. -/
theorem C8_dimension_validation (d : Int) (h2 : d ≠ 2) (h3 : d ≠ 3) :
    raisesError (randomFoldInit d) = true ∧
      raisesError (hillclimberFoldInit d) = true ∧
      raisesError (bfsFoldInit d) = false := by
  unfold randomFoldInit hillclimberFoldInit bfsFoldInit raisesError
  rw [if_neg (by tauto), if_neg (by tauto)]
  exact ⟨rfl, rfl, rfl⟩

/-- C8 witness: the amended behaviour at dimensionality 4. -/
theorem C8_witness :
    raisesError (randomFoldInit 4) = true ∧
      raisesError (hillclimberFoldInit 4) = true ∧
      raisesError (bfsFoldInit 4) = false :=
  C8_dimension_validation 4 (by decide) (by decide)

/-! ## AnnealingFold construction (C10)

`AnnealingFold.__init__` executes
`super().__init__(protein, dimensions, iterations, scores, outputfile,
verbose)` — six positional arguments — as its first statement, while
`HillclimberFold.__init__` declares only `(self, protein, dimensions,
iterations, verbose=False)`.  We model Python positional-argument
binding for the call. -/

/-- The positional parameters of `HillclimberFold.__init__` after
`self`, with whether each has a default. -/
def hillclimberInitParams : List (String × Bool) :=
  [("protein", false), ("dimensions", false), ("iterations", false),
    ("verbose", true)]

/-- The number of positional arguments `AnnealingFold.__init__` passes
to `super().__init__`. -/
def annealingSuperArgCount : Nat := 6

/-- Python positional binding: no more arguments than parameters, and
every parameter left unbound has a default; otherwise TypeError. -/
def positionalBindOk (params : List (String × Bool)) (nargs : Nat) : Bool :=
  (nargs ≤ params.length) && (params.drop nargs).all (·.2)

/-- The outcome of constructing an `AnnealingFold`: it is decided by
binding the forwarded arguments against the parent signature, before
any folding work. -/
def annealingInitOutcome : Except String Unit :=
  if positionalBindOk hillclimberInitParams annealingSuperArgCount then
    Except.ok ()
  else Except.error "TypeError"

/-- C10: constructing an `AnnealingFold` always raises a TypeError:
six positional arguments are forwarded to a parent initializer that
accepts at most four. -/
theorem C10_annealing_init_type_error :
    annealingInitOutcome = Except.error "TypeError" ∧
      positionalBindOk hillclimberInitParams annealingSuperArgCount = false ∧
      hillclimberInitParams.length < annealingSuperArgCount :=
  ⟨rfl, by decide, by decide⟩

/-! ## Symmetry pruning in the window search (C5) -/

/-- Modelled from the spec: the helper `_is_mirror_or_rotation` is
invoked by `Bfs_randomFold._bfsfold` and `MctsFold._bfsfold` but its
definition is absent from the source tree; per the spec, the axis-flip
map exchanges each lattice direction with its opposite. -/
def axisFlip (c : Char) : Char :=
  if c = 'R' then 'L' else if c = 'L' then 'R'
  else if c = 'U' then 'D' else if c = 'D' then 'U'
  else if c = 'F' then 'B' else if c = 'B' then 'F' else c

/-- Modelled from the spec: cyclic-rotation equivalence of two direction
sequences — one is a rotation of the other. -/
def isRotationOf (a b : List Char) : Bool :=
  (List.range (a.length + 1)).any (fun k => a.rotate k == b)

/-- Modelled from the spec: mirror equivalence — applying the axis-flip
map to one sequence reproduces the other read in reverse. -/
def isMirrorOf (a b : List Char) : Bool :=
  (a.map axisFlip).reverse == b

/-- Modelled from the spec: the equivalence test used by the symmetry
pruning step. -/
def is_mirror_or_rotation (a b : List Char) : Bool :=
  isRotationOf a b || isMirrorOf a b

/-- The pruning accumulation loop of `Bfs_randomFold._bfsfold`
(`for move_ in min_keys: if all(not self._is_mirror_or_rotation(move_,
unique_move) ...): unique_moves.add(move_)`), with the set iteration
order made explicit as a list. -/
def symmetryPrune (cands : List (List Char)) : List (List Char) :=
  cands.foldl (fun uniq m =>
    if uniq.all (fun u => ! is_mirror_or_rotation m u) = true then
      uniq ++ [m]
    else uniq) []

lemma axisFlip_invol (c : Char) : axisFlip (axisFlip c) = c := by
  by_cases h1 : c = 'R'
  · subst h1; decide
  by_cases h2 : c = 'L'
  · subst h2; decide
  by_cases h3 : c = 'U'
  · subst h3; decide
  by_cases h4 : c = 'D'
  · subst h4; decide
  by_cases h5 : c = 'F'
  · subst h5; decide
  by_cases h6 : c = 'B'
  · subst h6; decide
  have hc : axisFlip c = c := by
    unfold axisFlip
    rw [if_neg h1, if_neg h2, if_neg h3, if_neg h4, if_neg h5, if_neg h6]
  rw [hc, hc]

lemma isRotationOf_iff (a b : List Char) :
    isRotationOf a b = true ↔ a.IsRotated b := by
  unfold isRotationOf
  rw [List.any_eq_true]
  constructor
  · rintro ⟨k, hk, hrot⟩
    exact ⟨k, by simpa using hrot⟩
  · rintro ⟨n, hn⟩
    by_cases ha : a = []
    · subst ha
      simp only [List.rotate_nil] at hn
      refine ⟨0, by simp, ?_⟩
      simp [List.rotate_nil, hn]
    · refine ⟨n % a.length, ?_, ?_⟩
      · have hpos : 0 < a.length := List.length_pos.mpr ha
        have := Nat.mod_lt n hpos
        exact List.mem_range.mpr (by omega)
      · rw [List.rotate_mod]
        simpa using hn

lemma isMirrorOf_symm (a b : List Char) (h : isMirrorOf a b = true) :
    isMirrorOf b a = true := by
  unfold isMirrorOf at *
  rw [beq_iff_eq] at *
  subst h
  rw [List.map_reverse, List.reverse_reverse, List.map_map]
  have hid : axisFlip ∘ axisFlip = id := funext axisFlip_invol
  rw [hid, List.map_id]

lemma is_mirror_or_rotation_symm (a b : List Char)
    (h : is_mirror_or_rotation a b = true) :
    is_mirror_or_rotation b a = true := by
  unfold is_mirror_or_rotation at *
  have h2 : isRotationOf a b = true ∨ isMirrorOf a b = true := by
    simpa using h
  have h3 : isRotationOf b a = true ∨ isMirrorOf b a = true := by
    rcases h2 with hr | hm
    · exact Or.inl ((isRotationOf_iff b a).mpr ((isRotationOf_iff a b).mp hr).symm)
    · exact Or.inr (isMirrorOf_symm a b hm)
  rcases h3 with h3 | h3 <;> simp [h3]

lemma symmetryPrune_invariant (cands : List (List Char)) :
    ∀ acc, List.Pairwise (fun u v => is_mirror_or_rotation v u = false) acc →
      List.Pairwise (fun u v => is_mirror_or_rotation v u = false)
        (cands.foldl (fun uniq m =>
          if uniq.all (fun u => ! is_mirror_or_rotation m u) = true then
            uniq ++ [m]
          else uniq) acc) := by
  induction cands with
  | nil => exact fun acc h => h
  | cons m cs ih =>
    intro acc hacc
    simp only [List.foldl_cons]
    by_cases hall : acc.all (fun u => ! is_mirror_or_rotation m u) = true
    · rw [if_pos hall]
      apply ih
      rw [List.pairwise_append]
      refine ⟨hacc, List.pairwise_singleton _ _, ?_⟩
      intro u hu v hv
      rw [List.mem_singleton] at hv
      subst hv
      have := List.all_eq_true.mp hall u hu
      simpa using this
    · rw [if_neg hall]
      exact ih acc hacc

/-- C5: when the tied-best set contains two direction sequences that are
rotations or mirrors of each other, the symmetry pruning never keeps
both, and on the synthetic two-element beam it keeps exactly the first
one. -/
theorem C5_symmetry_prune (cands : List (List Char)) (s t : List Char)
    (hne : s ≠ t) (heq : is_mirror_or_rotation s t = true) :
    ¬ (s ∈ symmetryPrune cands ∧ t ∈ symmetryPrune cands) ∧
      symmetryPrune [s, t] = [s] := by
  constructor
  · rintro ⟨hs, ht⟩
    have hpw := symmetryPrune_invariant cands [] List.Pairwise.nil
    have hsymR : Symmetric (fun u v : List Char =>
        is_mirror_or_rotation v u = false) := by
      intro u v huv
      rcases hb : is_mirror_or_rotation u v with _ | _
      · rfl
      · rw [is_mirror_or_rotation_symm u v hb] at huv
        exact huv
    have hfor := List.Pairwise.forall hsymR hpw
    have hts := hfor hs ht hne
    have h2 : is_mirror_or_rotation t s = true :=
      is_mirror_or_rotation_symm s t heq
    rw [h2] at hts
    exact Bool.noConfusion hts
  · have h2 : is_mirror_or_rotation t s = true :=
      is_mirror_or_rotation_symm s t heq
    show (if [s].all (fun u => ! is_mirror_or_rotation t u) = true then
        [s] ++ [t] else [s]) = [s]
    have hcond : ¬ ([s].all (fun u => ! is_mirror_or_rotation t u) = true) := by
      intro hall
      have h3 := List.all_eq_true.mp hall s (by simp)
      rw [h2] at h3
      simp at h3
    rw [if_neg hcond]

/-- C5 witness: the two-element beam holding a sequence and its cyclic
rotation keeps exactly the first element. -/
theorem C5_witness :
    ¬ (['R', 'U'] ∈ symmetryPrune [['R', 'U'], ['U', 'R']] ∧
        ['U', 'R'] ∈ symmetryPrune [['R', 'U'], ['U', 'R']]) ∧
      symmetryPrune [['R', 'U'], ['U', 'R']] = [['R', 'U']] :=
  C5_symmetry_prune [['R', 'U'], ['U', 'R']] ['R', 'U'] ['U', 'R']
    (by decide) (by decide)

/-! ## RandomFold.backtracking (`codefiles/algorithms/random.py`)

A step-accurate embedding of `RandomFold.backtracking`.  Randomness is
supplied as a stream of indices (`random.choice(directions)` picks the
element at the next index modulo the live direction-list length).  The
occupancy grid is a Python dict from positions to acid indices; the
amino acid `.position` attributes and `protein_path` are index-addressed
lists.  `backtracking_bool` is reset at the end of every loop iteration,
so each iteration starts with it False; within an iteration the
backtracking branch simply skips the advance branch, which the model
encodes by structural control flow. -/

/-- `_get_directions` for the given dimensionality. -/
def getDirections (dims : Nat) : List Pos3 :=
  if dims = 2 then [⟨1,0,0⟩, ⟨-1,0,0⟩, ⟨0,1,0⟩, ⟨0,-1,0⟩]
  else if dims = 3 then
    [⟨1,0,0⟩, ⟨-1,0,0⟩, ⟨0,1,0⟩, ⟨0,-1,0⟩, ⟨0,0,1⟩, ⟨0,0,-1⟩]
  else []

/-- Python dict membership (`position in self._grid`). -/
def dictContains (g : List (Pos3 × Nat)) (k : Pos3) : Bool :=
  g.any (fun e => e.1 = k)

/-- Python dict assignment (`self._grid[position] = acid`). -/
def dictInsert (g : List (Pos3 × Nat)) (k : Pos3) (v : Nat) :
    List (Pos3 × Nat) :=
  if dictContains g k = true then
    g.map (fun e => if e.1 = k then (k, v) else e)
  else g ++ [(k, v)]

/-- Python `self._grid.pop(position, None)`. -/
def dictRemove (g : List (Pos3 × Nat)) (k : Pos3) : List (Pos3 × Nat) :=
  g.filter (fun e => ! decide (e.1 = k))

/-- Python list indexing with negative-index wraparound
(`protein_path[i]`). -/
def pyGetPath (l : List Pos3) (i : Int) : Pos3 :=
  if 0 ≤ i then l.getD i.toNat ⟨0,0,0⟩
  else l.getD (l.length - (-i).toNat) ⟨0,0,0⟩

/-- The reversal `(-x, -y, -z)` of a move vector. -/
def negDir (d : Pos3) : Pos3 := ⟨-d.x, -d.y, -d.z⟩

/-- The mutable state of one `backtracking` call. -/
structure BtState where
  n : Nat
  dims : Nat
  positions : List Pos3
  grid : List (Pos3 × Nat)
  path : List Pos3
  dirs : List Pos3
  ai : Nat
  cnt : Nat
  maxBt : Nat
  lastDir : Pos3
  picks : List Nat
  restarts : Nat
deriving DecidableEq, Repr

/-- The state at entry of `backtracking` on a freshly built protein
(all positions at the origin, head added to the grid, `protein_path`
initialized, `acid_index = 1`). -/
def btInit (n dims maxBt : Nat) (picks : List Nat) : BtState :=
  { n := n
    dims := dims
    positions := List.replicate n ⟨0,0,0⟩
    grid := [(⟨0,0,0⟩, 0)]
    path := List.replicate n ⟨0,0,0⟩
    dirs := getDirections dims
    ai := 1
    cnt := 0
    maxBt := maxBt
    lastDir := ⟨0,0,0⟩
    picks := picks
    restarts := 0 }

/-- The inner `while directions:` loop: draw a direction, place the acid
at `predecessor.position + direction` if that cell is free
(`is_valid_fold`), otherwise remove the direction and retry.  Returns
the updated state and whether a placement happened. -/
def tryPlaceLoop : Nat → BtState → BtState × Bool
  | 0, st => (st, false)
  | fuel + 1, st =>
    match st.dirs with
    | [] => (st, false)
    | _ :: _ =>
      let p := st.picks.headD 0
      let rd := st.dirs.getD (p % st.dirs.length) ⟨0,0,0⟩
      let newPos := posAdd (st.positions.getD (st.ai - 1) ⟨0,0,0⟩) rd
      if dictContains st.grid newPos = false then
        ({ st with
            positions := st.positions.set st.ai newPos
            grid := dictInsert st.grid newPos st.ai
            path := st.path.set st.ai newPos
            lastDir := rd
            picks := st.picks.tail }, true)
      else
        tryPlaceLoop fuel
          { st with
              dirs := st.dirs.erase rd
              lastDir := rd
              picks := st.picks.tail }

/-- The full reset performed when the backtrack counter exceeds its
bound: every acid's current position is removed from the grid and reset
to the origin, then `self.backtracking()` re-enters with the DEFAULT
bound 5000 and a fresh counter. -/
def btRestart (st : BtState) : BtState :=
  let cleared := (List.range st.n).foldl
    (fun g i => dictRemove g (st.positions.getD i ⟨0,0,0⟩)) st.grid
  { st with
      positions := List.replicate st.n ⟨0,0,0⟩
      grid := dictInsert cleared ⟨0,0,0⟩ 0
      path := List.replicate st.n ⟨0,0,0⟩
      dirs := getDirections st.dims
      ai := 1
      cnt := 0
      maxBt := 5000
      restarts := st.restarts + 1 }

/-- The advance branch (`if not backtracking_bool:`): exclude the
reversal of the last drawn direction and move to the next acid. -/
def btAdvance (st : BtState) : BtState :=
  { st with
      dirs := (getDirections st.dims).erase (negDir st.lastDir)
      ai := st.ai + 1 }

/-- One iteration of the outer `while acid_index < len(...)` loop. -/
def btStep (st : BtState) : BtState :=
  if 1 ≤ st.ai then
    let res := tryPlaceLoop (st.dirs.length + 1) st
    let st2 := res.1
    if st2.dirs.isEmpty = true then
      let avoid1 := posSub (pyGetPath st2.path ((st2.ai : Int) - 2))
        (pyGetPath st2.path ((st2.ai : Int) - 3))
      let avoid2 := posSub (pyGetPath st2.path ((st2.ai : Int) - 1))
        (pyGetPath st2.path ((st2.ai : Int) - 2))
      let st3 := { st2 with
        dirs := ((getDirections st2.dims).erase avoid1).erase avoid2
        ai := st2.ai - 1
        cnt := st2.cnt + 1 }
      if st3.cnt > st3.maxBt then btRestart st3
      else { st3 with
        grid := dictRemove st3.grid (st3.positions.getD st2.ai ⟨0,0,0⟩) }
    else btAdvance st2
  else btAdvance st

/-- The outer loop, with fuel. -/
def btRun : Nat → BtState → BtState
  | 0, st => st
  | fuel + 1, st => if st.ai < st.n then btRun fuel (btStep st) else st

/-- The caller-visible outcome of a `backtracking` call: the source
either finishes normally (the loop index reaches the chain length) or
is still looping; the fold-not-found report promised by the spec is a
possible outcome value that the code never produces. -/
inductive FoldOutcome where
  | success (positions : List Pos3)
  | running
  | foldNotFound
deriving DecidableEq, Repr

/-- Observable result of running `backtracking` for `fuel` outer-loop
iterations. -/
def backtrackingOutcome (fuel : Nat) (st : BtState) : FoldOutcome :=
  let f := btRun fuel st
  if f.ai < f.n then FoldOutcome.running else FoldOutcome.success f.positions

/-- The random draw indices of a run of a chain of 11 residues in 2D:
the walk goes U, R, R, D, D, L, U, traps itself at the eighth placement
(R, L, U all occupied), backtracks once, re-places the seventh residue
with D after R fails, then finishes L, U, U. -/
def c4Picks : List Nat := [2, 0, 0, 2, 2, 1, 1, 0, 0, 0, 0, 0, 1, 1, 2]

/-- The state returned by `backtracking` on that run. -/
def c4Final : BtState := btRun 40 (btInit 11 2 5000 c4Picks)

/-- C4 failing run: the walk completes normally (`acid_index` reached
the chain length, so `run` returns this chain), but residues 0 and 10
both sit at the origin — the chain is not self-avoiding.  During the
backtrack the code removed `acid.position` of the acid that was never
placed — the stale origin, i.e. the head's grid entry — instead of the
entry of the residue being unwound, so the origin looked free again;
the grid even holds 11 entries, so `is_valid` would accept the chain. -/
theorem C4_backtracking_overlap :
    c4Final.ai = 11 ∧
      c4Final.positions.getD 0 ⟨9,9,9⟩ = ⟨0,0,0⟩ ∧
      c4Final.positions.getD 10 ⟨9,9,9⟩ = ⟨0,0,0⟩ ∧
      ¬ c4Final.positions.Nodup ∧
      c4Final.grid.length = 11 ∧
      c4Final.restarts = 0 := by
  decide

lemma backtrackingOutcome_ne_foldNotFound (fuel : Nat) (st : BtState) :
    backtrackingOutcome fuel st ≠ FoldOutcome.foldNotFound := by
  intro h
  simp only [backtrackingOutcome] at h
  by_cases hc : (btRun fuel st).ai < (btRun fuel st).n
  · rw [if_pos hc] at h
    exact FoldOutcome.noConfusion h
  · rw [if_neg hc] at h
    exact FoldOutcome.noConfusion h

/-- C6 counterexample: no execution of `backtracking` — whatever the
random stream, the bound, and the number of loop iterations — ever
reports the fold-not-found outcome the claim promises; the code's only
outcomes are normal completion and continued looping/restarting. -/
theorem C6_counterexample :
    ¬ ∃ (fuel : Nat) (st : BtState),
      backtrackingOutcome fuel st = FoldOutcome.foldNotFound := by
  rintro ⟨fuel, st, h⟩
  exact backtrackingOutcome_ne_foldNotFound fuel st h

/-- The draw indices of a 9-residue 2D run configured with
`max_backtracking = 0`: the walk traps itself at the eighth placement,
the single backtrack exceeds the bound and triggers a full restart,
after which the walk goes straight. -/
def c6Picks : List Nat :=
  [2, 0, 0, 2, 2, 1, 1, 0, 0, 0, 0, 0, 0, 0, 0, 0, 0, 0]

/-- The state right after the restart triggers (8 outer iterations). -/
def c6Mid : BtState := btRun 8 (btInit 9 2 0 c6Picks)

/-- The state when the run finishes. -/
def c6Final : BtState := btRun 40 (btInit 9 2 0 c6Picks)

/-- C6 amended: when the backtrack counter exceeds its bound the walk
removes every residue from the grid, resets all positions to the origin
and re-enters from scratch — with the counter cleared and the bound
reset to the DEFAULT 5000, regardless of the configured value; there is
no limit on the number of restarts and no fold-not-found report: the
only outcomes are success and further looping. -/
theorem C6_restart_no_error :
    (c6Mid.restarts = 1 ∧ c6Mid.cnt = 0 ∧ c6Mid.maxBt = 5000 ∧
      c6Mid.positions = List.replicate 9 ⟨0,0,0⟩ ∧
      c6Mid.grid = [(⟨0,0,0⟩, 0)] ∧ c6Mid.ai = 1) ∧
    (c6Final.ai = 9 ∧ c6Final.restarts = 1 ∧
      backtrackingOutcome 40 (btInit 9 2 0 c6Picks) =
        FoldOutcome.success c6Final.positions) ∧
    (∀ (fuel : Nat) (st : BtState),
      backtrackingOutcome fuel st ≠ FoldOutcome.foldNotFound) := by
  refine ⟨by decide, ⟨by decide, by decide, by decide⟩, ?_⟩
  exact backtrackingOutcome_ne_foldNotFound

/-- C6 witness: a concrete zero-fuel run is not reported as
fold-not-found. -/
theorem C6_witness :
    backtrackingOutcome 0 (btInit 9 2 0 []) ≠ FoldOutcome.foldNotFound :=
  C6_restart_no_error.2.2 0 (btInit 9 2 0 [])

end HardcodedProtein
